import Mathlib

/-!
Verification of the `ext_format` template-string compiler (Rust crate)
against its natural-language specification.

Shallow embedding notes:
* Rust `&str` / `String` values are modelled as `List Char` (the sequence of
  Unicode scalar values produced by `chars()`); byte-sensitive operations
  (`len()`, slicing in `unindent`) are modelled through `Char.utf8Size`.
* Rust panics (including `unwrap()` on `None`) are modelled as the `fatal`
  error of an `Except`; the caller never observes a partial result, exactly
  as a panic aborts the Rust call.
* `char::is_whitespace` (Unicode `White_Space`) is modelled by the explicit
  code-point table `rustIsWhitespace`.
* `char::is_alphabetic` / `is_alphanumeric` are modelled by the ASCII
  approximations `Char.isAlpha` / `Char.isAlphanum`; every input appearing in
  a claim, test or scenario of the spec is ASCII, where the two agree.
-/

namespace ExtFormat

/-- The Unicode `White_Space` property, as used by Rust's
`char::is_whitespace` (table from the Unicode `PropList`). -/
def rustIsWhitespace (c : Char) : Bool :=
  (9 ≤ c.toNat && c.toNat ≤ 13) || c.toNat = 32 || c.toNat = 0x85 ||
  c.toNat = 0xA0 || c.toNat = 0x1680 ||
  (0x2000 ≤ c.toNat && c.toNat ≤ 0x200A) ||
  c.toNat = 0x2028 || c.toNat = 0x2029 || c.toNat = 0x202F ||
  c.toNat = 0x205F || c.toNat = 0x3000

/-- Total UTF-8 byte length of a character sequence: models Rust
`str::len()` on the string holding these chars. -/
def utf8Len (l : List Char) : Nat := (l.map Char.utf8Size).sum

/-! ## util.rs -/

/-- Models `source.split("\n")` at the char level: split into lines on
`'\n'`, never returning an empty list (Rust `split` always yields at least
one piece). -/
def splitNl : List Char → List (List Char)
  | [] => [[]]
  | c :: rest =>
    if c = '\n' then [] :: splitNl rest
    else
      match splitNl rest with
      | [] => [[c]]
      | l :: ls => (c :: l) :: ls

/-- Byte length of the leading-whitespace run of a line: models
`line.chars().take_while(|ch| ch.is_whitespace() && *ch != '\n').map(|ch| ch.len_utf8()).sum()`
from `get_indent_level` (util.rs lines 12–16). -/
def leadingWsBytes (line : List Char) : Nat :=
  utf8Len (line.takeWhile (fun c => rustIsWhitespace c && c != '\n'))

/-- Models `line.trim() == ""` (util.rs line 9): a line trims to the empty
string exactly when every char is whitespace. -/
def lineIsBlank (line : List Char) : Bool := line.all rustIsWhitespace

/-- Models `get_indent_level` (util.rs lines 6–25). `none` models the
initial `usize::MAX` surviving because no non-blank line exists; a real
`usize` line length can never exceed `usize::MAX`, so `none` makes the
`line.len() > indent` test in `unindent` false, as in the source. The
source's early `break` at `min_indent == 0` does not change the resulting
minimum and is dropped. -/
def get_indent_level (source : List Char) : Option Nat :=
  (splitNl source).foldl
    (fun acc line =>
      if lineIsBlank line then acc
      else
        match acc with
        | none => some (leadingWsBytes line)
        | some m => some (min m (leadingWsBytes line)))
    none

/-- Models the byte slice `&line[n..]`: drop whole chars totalling exactly
`n` bytes. Returns `none` when `n` is not a char boundary of the line or
exceeds its byte length — in Rust both cases panic. -/
def dropBytes : Nat → List Char → Option (List Char)
  | 0, l => some l
  | _ + 1, [] => none
  | n + 1, c :: cs =>
    if c.utf8Size ≤ n + 1 then dropBytes (n + 1 - c.utf8Size) cs else none

/-- One iteration of the `unindent` loop body (util.rs lines 34–39): strip
the slice when the line's byte length exceeds the indent, otherwise keep the
line as is. -/
def unindentLine (indent : Option Nat) (line : List Char) : Option (List Char) :=
  match indent with
  | none => some line
  | some n => if n < utf8Len line then dropBytes n line else some line

/-- Models the joining in `unindent` (util.rs lines 40–42): `"\n"` is pushed
after every line except the last. -/
def joinNl : List (List Char) → List Char
  | [] => []
  | [l] => l
  | l :: ls => l ++ '\n' :: joinNl ls

/-- Applies `unindentLine` to every line, propagating a slice panic. -/
def unindentLines (indent : Option Nat) : List (List Char) → Option (List (List Char))
  | [] => some []
  | l :: ls => do
    let l' ← unindentLine indent l
    let ls' ← unindentLines indent ls
    pure (l' :: ls')

/-- Models `unindent` (util.rs lines 29–45). A `none` result models the
panic of an out-of-boundary byte slice inside the loop. -/
def unindent (source : List Char) : Option (List Char) := do
  let lines ← unindentLines (get_indent_level source) (splitNl source)
  pure (joinNl lines)

/-- `unindent` on Lean strings. -/
def unindentStr (s : String) : Option String :=
  (unindent s.data).map fun l => String.mk l

/-- Models `char::is_ascii_hexdigit`. -/
def isAsciiHexdigit (c : Char) : Bool :=
  ('0' ≤ c && c ≤ '9') || ('a' ≤ c && c ≤ 'f') || ('A' ≤ c && c ≤ 'F')

/-- Numeric value of an ASCII hex digit. -/
def hexVal (c : Char) : Nat :=
  if '0' ≤ c && c ≤ '9' then c.toNat - '0'.toNat
  else if 'a' ≤ c && c ≤ 'f' then c.toNat - 'a'.toNat + 10
  else c.toNat - 'A'.toNat + 10

/-- Models `byte_from_hex_chars` (util.rs lines 52–56): parse two hex digits
as a byte and reinterpret it as the char with that code point (`byte as char`
maps a `u8` to U+0000..U+00FF). Only called on valid hex digits. -/
def byte_from_hex_chars (h1 h2 : Char) : Char :=
  Char.ofNat (16 * hexVal h1 + hexVal h2)

/-- Models `unescape` (util.rs lines 63–96), a total function on char
sequences. Branch for branch: `\\`, `\n`, `\r`, `\t` decode; `\xHH` decodes
when both following chars are hex digits and otherwise passes the consumed
chars through with the backslash; short or missing suffixes pass through;
any other escaped char passes through with the backslash; a trailing lone
backslash is kept. -/
def unescape : List Char → List Char
  | [] => []
  | ['\\'] => ['\\']
  | '\\' :: '\\' :: rest => '\\' :: unescape rest
  | '\\' :: 'n' :: rest => '\n' :: unescape rest
  | '\\' :: 'r' :: rest => '\r' :: unescape rest
  | '\\' :: 't' :: rest => '\t' :: unescape rest
  | ['\\', 'x'] => ['\\', 'x']
  | ['\\', 'x', h1] => ['\\', 'x', h1]
  | '\\' :: 'x' :: h1 :: h2 :: rest =>
    if isAsciiHexdigit h1 && isAsciiHexdigit h2 then
      byte_from_hex_chars h1 h2 :: unescape rest
    else
      '\\' :: 'x' :: h1 :: h2 :: unescape rest
  | '\\' :: c :: rest => '\\' :: c :: unescape rest
  | c :: rest => c :: unescape rest

/-- `unescape` on Lean strings. -/
def unescapeStr (s : String) : String := String.mk (unescape s.data)

/-! ## parse.rs

The recursive-descent parser of parse.rs. A `Peekable<Chars>` cursor is
modelled as the remaining `List Char`; each parsing function returns the
parsed value together with the remaining suffix. Every `panic!` /
`unwrap()`-on-`None` / `expect` site is a `fatal` error: a Rust panic aborts
the whole parse, so no partial node list can be returned.

The two loops of `parse_toplevel` and `parse_group` and the mutual recursion
`parse_group` ↔ `parse_binding` terminate in Rust because every iteration
consumes input; here that is expressed through a fuel parameter decremented
on every recursive call. `parse` supplies `4 * length + 4` fuel, which the
lemmas below show is never exhausted on the inputs they cover; `outOfFuel`
is an artifact of the embedding, never an outcome of the Rust code. -/

/-- The parser's AST (parse.rs lines 4–10). -/
inductive QuoteToken where
  | Literal : String → QuoteToken
  | Variable : String → Option String → QuoteToken
  | HiddenVariable : String → Option String → QuoteToken
  | Group : List QuoteToken → Option String → QuoteToken
deriving Repr

/-- Parse-time failure: `fatal` models a Rust panic (with its message);
`outOfFuel` is the embedding artifact described above. -/
inductive ParseErr where
  | fatal : String → ParseErr
  | outOfFuel : ParseErr
deriving Repr, DecidableEq

/-- Models the `flush_literal!` / `final_flush_literal!` macros
(parse.rs lines 19–34): push the accumulated literal if non-empty. -/
def flushLiteral (toks : List QuoteToken) (lit : List Char) : List QuoteToken :=
  if lit.isEmpty then toks else toks ++ [QuoteToken.Literal (String.mk lit)]

/-- Models the ident-continuation scan of `parse_ident` (parse.rs lines
178–184): take chars while alphanumeric or underscore. -/
def spanIdent : List Char → List Char × List Char
  | [] => ([], [])
  | c :: rest =>
    if c.isAlphanum || c = '_' then
      let (a, b) := spanIdent rest
      (c :: a, b)
    else ([], c :: rest)

/-- Models `parse_ident` (parse.rs lines 171–186): first char must be
alphabetic or `_`, subsequent chars alphanumeric or `_`. An empty source
models `source.next().unwrap()` panicking. -/
def parse_ident : List Char → Except ParseErr (String × List Char)
  | [] => .error (.fatal "unwrap on empty source")
  | c :: rest =>
    if c.isAlpha || c = '_' then
      let (a, b) := spanIdent rest
      .ok (String.mk (c :: a), b)
    else .error (.fatal "expected identifier")

/-- Models `parse_bound_ident` (parse.rs lines 188–205). -/
def parse_bound_ident : List Char → Except ParseErr ((String × Option String) × List Char)
  | '{' :: rest => do
    let (ident, r) ← parse_ident rest
    match r with
    | ':' :: r2 => do
      let (inner, r3) ← parse_ident r2
      match r3 with
      | '}' :: r4 => .ok ((ident, some inner), r4)
      | _ => .error (.fatal "expected closing brace")
    | '}' :: r2 => .ok ((ident, none), r2)
    | _ => .error (.fatal "expected colon or closing brace")
  | _ => .error (.fatal "expected opening brace")

/-- Models `parse_variable_idents` (parse.rs lines 163–169): peek decides
between the brace form and a bare identifier. -/
def parse_variable_idents : List Char → Except ParseErr ((String × Option String) × List Char)
  | [] => .error (.fatal "peek on empty source")
  | c :: rest =>
    if c = '{' then parse_bound_ident (c :: rest)
    else do
      let (ident, r) ← parse_ident (c :: rest)
      .ok ((ident, none), r)

/-- Models `parse_variable` (parse.rs lines 153–156). -/
def parse_variable (source : List Char) : Except ParseErr (QuoteToken × List Char) := do
  let ((ident, inner), rest) ← parse_variable_idents source
  .ok (QuoteToken.Variable ident inner, rest)

/-- Models `parse_hidden_variable` (parse.rs lines 158–161). -/
def parse_hidden_variable (source : List Char) : Except ParseErr (QuoteToken × List Char) := do
  let ((ident, inner), rest) ← parse_variable_idents source
  .ok (QuoteToken.HiddenVariable ident inner, rest)

/-- Models the separator-text scan of `parse_group_separator` (parse.rs
lines 125–131): consume chars until the first `')'` (exclusive); `none` in
the second component means the source was exhausted without a `')'`. -/
def scanSeparator : List Char → List Char × Option (List Char)
  | [] => ([], none)
  | c :: rest =>
    if c = ')' then ([], some rest)
    else
      let (a, r) := scanSeparator rest
      (c :: a, r)

/-- Models `parse_group_separator` (parse.rs lines 120–142): `*` → no
separator; `(` → scan to the first `)` then require `*`; otherwise one char
then require `*`. -/
def parse_group_separator : List Char → Except ParseErr (Option String × List Char)
  | [] => .error (.fatal "expected separator")
  | c :: rest =>
    if c = '*' then .ok (none, rest)
    else if c = '(' then
      match scanSeparator rest with
      | (_, none) => .error (.fatal "unwrap on empty source")
      | (acc, some r) =>
        match r with
        | [] => .error (.fatal "unwrap on empty source")
        | c2 :: r2 =>
          if c2 = '*' then .ok (some (String.mk acc), r2)
          else .error (.fatal "expected star after variable group")
    else
      match rest with
      | [] => .error (.fatal "unwrap on empty source")
      | c2 :: r2 =>
        if c2 = '*' then .ok (some (String.mk [c]), r2)
        else .error (.fatal "expected star after variable group")

mutual

/-- Models the loop of `parse_toplevel` (parse.rs lines 36–66), with the
accumulated tokens and current literal made explicit. -/
def parse_toplevel_f : Nat → List Char → List QuoteToken → List Char →
    Except ParseErr (List QuoteToken)
  | 0, _, _, _ => .error .outOfFuel
  | _ + 1, [], toks, lit => .ok (flushLiteral toks lit)
  | fuel + 1, c :: rest, toks, lit =>
    if c = '@' then do
      let (tok, rest') ← parse_hidden_variable rest
      parse_toplevel_f fuel rest' (flushLiteral toks lit ++ [tok]) []
    else if c = '$' then do
      let (tok, rest') ← parse_binding_f fuel rest
      parse_toplevel_f fuel rest' (flushLiteral toks lit ++ [tok]) []
    else if c = '\\' then
      match rest with
      | [] => .error (.fatal "unwrap on empty source")
      | c2 :: rest' => parse_toplevel_f fuel rest' toks (lit ++ [c2])
    else parse_toplevel_f fuel rest toks (lit ++ [c])

/-- Models `parse_binding` (parse.rs lines 144–151): peek decides between a
group and a variable. -/
def parse_binding_f : Nat → List Char → Except ParseErr (QuoteToken × List Char)
  | 0, _ => .error .outOfFuel
  | fuel + 1, source =>
    match source with
    | [] => .error (.fatal "peek on empty source")
    | c :: rest =>
      if c = '(' then parse_group_f fuel (c :: rest)
      else parse_variable (c :: rest)

/-- Models the entry of `parse_group` (parse.rs lines 68–71): the first char
must be `'('`. -/
def parse_group_f : Nat → List Char → Except ParseErr (QuoteToken × List Char)
  | 0, _ => .error .outOfFuel
  | fuel + 1, source =>
    match source with
    | '(' :: rest => parse_group_loop_f fuel rest [] [] 0
    | _ => .error (.fatal "expected open paren")

/-- Models the loop of `parse_group` (parse.rs lines 73–117): tokens,
current literal and parenthesis depth made explicit; exhausting the source
is the "unexpected end of variable group" panic. -/
def parse_group_loop_f : Nat → List Char → List QuoteToken → List Char → Nat →
    Except ParseErr (QuoteToken × List Char)
  | 0, _, _, _, _ => .error .outOfFuel
  | _ + 1, [], _, _, _ => .error (.fatal "unexpected end of variable group")
  | fuel + 1, c :: rest, toks, lit, depth =>
    if c = '@' then do
      let (tok, rest') ← parse_hidden_variable rest
      parse_group_loop_f fuel rest' (flushLiteral toks lit ++ [tok]) [] depth
    else if c = '$' then do
      let (tok, rest') ← parse_binding_f fuel rest
      parse_group_loop_f fuel rest' (flushLiteral toks lit ++ [tok]) [] depth
    else if c = '\\' then
      match rest with
      | [] => .error (.fatal "unwrap on empty source")
      | c2 :: rest' => parse_group_loop_f fuel rest' toks (lit ++ [c2]) depth
    else if c = '(' then
      parse_group_loop_f fuel rest toks (lit ++ ['(']) (depth + 1)
    else if c = ')' then
      if depth = 0 then do
        let (sep, rest') ← parse_group_separator rest
        .ok (QuoteToken.Group (flushLiteral toks lit) sep, rest')
      else parse_group_loop_f fuel rest toks (lit ++ [')']) (depth - 1)
    else parse_group_loop_f fuel rest toks (lit ++ [c]) depth

end

/-- Models `parse` (parse.rs lines 15–17). The fuel is an embedding bound on
the recursion, generous enough for every execution the theorems below touch. -/
def parse (source : String) : Except ParseErr (List QuoteToken) :=
  parse_toplevel_f (4 * source.length + 4) source.data [] []

/-! ## codegen.rs

`generate_code` emits Rust code; this section gives that emitted code its
runtime semantics directly, as a tree-walking renderer over an environment.
The correspondence, branch for branch:
* the `mapping: HashMap<String, String>` threaded through
  `generate_inner_code` becomes an association list (later `insert`s win,
  hence the `reverse` when the group mapping is built);
* a Rust `let` binding emitted into the block becomes a cons onto the
  runtime environment, visible to the later siblings and dropped when the
  block ends;
* `fizip!(a.iter(), b.iter(), …).collect::<Vec<_>>()` zips to the shortest
  lane, so the iteration count is the `foldl min` of the lane lengths;
  `fizip!()` with no lanes matches no macro arm and fails to compile,
  modelled by the `emptyZip` error;
* the `nested_tuple!(…)` destructuring pattern rejects a repeated binder
  (Rust E0416), modelled by the `duplicatePattern` error;
* `.to_string()` on a `Vec` and `.iter()` on a scalar do not compile,
  modelled by `notDisplayable` / `notIterable`;
* an identifier that is not in scope does not compile, modelled by
  `unresolved`. -/

/-- A runtime value: a displayable scalar (its display form) or a sequence. -/
inductive Value where
  | str : String → Value
  | seq : List Value → Value
deriving Repr

/-- Runtime environment: the stack of bindings in scope, innermost first. -/
abbrev Env := List (String × Value)

/-- First-match lookup in an association list. -/
def assocFind (key : String) : List (String × String) → Option String
  | [] => none
  | (k, v) :: rest => if k = key then some v else assocFind key rest

/-- Models `mapping.get(&ident).unwrap_or(&ident)` (codegen.rs lines 87,
108): rename through the compile-time mapping, falling back to the raw name. -/
def resolveName (mapping : List (String × String)) (ident : String) : String :=
  (assocFind ident mapping).getD ident

/-- Innermost-first lookup in the runtime environment. -/
def lookupEnv : Env → String → Option Value
  | [], _ => none
  | (k, v) :: e, n => if k = n then some v else lookupEnv e n

/-- Rendering failure; see the section comment for what each constructor
models. -/
inductive RenderErr where
  | unresolved : String → RenderErr
  | notDisplayable : RenderErr
  | notIterable : RenderErr
  | emptyZip : RenderErr
  | duplicatePattern : RenderErr
deriving Repr, DecidableEq

/-- Models `.to_string()` on a rendered value. -/
def valToString : Value → Except RenderErr String
  | .str s => .ok s
  | .seq _ => .error .notDisplayable

/-- Models `.iter()` on a lane variable. -/
def valToSeq : Value → Except RenderErr (List Value)
  | .seq l => .ok l
  | .str _ => .error .notIterable

/-- Membership test for the `inner_variables: HashSet<String>` of
`get_variable_names`. -/
def seenContains (v : String) : List String → Bool
  | [] => false
  | s :: rest => if s = v then true else seenContains v rest

/-- The loop of `get_variable_names` (codegen.rs lines 124–139) with the
`inner_variables` set explicit. Literals and nested `Group`s are skipped; a
reference whose variable name is in the set adds nothing; an aliased
reference records its alias in the set; an unaliased reference derives the
`__ext_format_inner_` name and records nothing. -/
def get_variable_names_go : List QuoteToken → List String → List (String × String)
  | [], _ => []
  | QuoteToken.Variable v inner :: ts, seen =>
    if seenContains v seen then get_variable_names_go ts seen
    else
      match inner with
      | some inn => (v, inn) :: get_variable_names_go ts (inn :: seen)
      | none => (v, "__ext_format_inner_" ++ v) :: get_variable_names_go ts seen
  | QuoteToken.HiddenVariable v inner :: ts, seen =>
    if seenContains v seen then get_variable_names_go ts seen
    else
      match inner with
      | some inn => (v, inn) :: get_variable_names_go ts (inn :: seen)
      | none => (v, "__ext_format_inner_" ++ v) :: get_variable_names_go ts seen
  | _ :: ts, seen => get_variable_names_go ts seen

/-- Models `get_variable_names` (codegen.rs lines 121–141): the ordered list
of zipped lanes, each a pair of variable name and alias ("inner" name). -/
def get_variable_names (tokens : List QuoteToken) : List (String × String) :=
  get_variable_names_go tokens []

/-- True when the list of pattern binders has no repetition. -/
def distinctNames : List String → Bool
  | [] => true
  | s :: rest => !seenContains s rest && distinctNames rest

/-- Resolve every lane's variable in the environment and require a sequence,
modelling `fizip!(#(#idents.iter()),*)` (codegen.rs line 169). -/
def resolveLanes (e : Env) : List (String × String) → Except RenderErr (List (String × List Value))
  | [] => .ok []
  | (v, inn) :: rest => do
    match lookupEnv e v with
    | none => .error (.unresolved v)
    | some val => do
      let l ← valToSeq val
      let r ← resolveLanes e rest
      .ok ((inn, l) :: r)

/-- Iteration count of the zipped lanes: `fizip!` folds binary `zip`, whose
length is the minimum; no lane at all is the `fizip!()` compile error. -/
def zipLen : List Nat → Except RenderErr Nat
  | [] => .error .emptyZip
  | n :: ns => .ok (ns.foldl min n)

/-- The bindings made by the `nested_tuple!` pattern at iteration `i`: each
lane's alias bound to that lane's `i`-th element. Only evaluated at
`i < zipLen`, so every lane is long enough and the default is never used. -/
def laneRow (lanes : List (String × List Value)) (i : Nat) : List (String × Value) :=
  lanes.map fun p => (p.1, p.2.getD i (Value.str ""))

/-- Push a row of pattern bindings onto the environment. -/
def extendEnv (e : Env) (row : List (String × Value)) : Env :=
  row.foldl (fun acc p => p :: acc) e

/-- The text appended after one iteration of the emitted loop: the separator
when one was given and further iterations remain (`i < iterator.len() - 1`
in the emitted code), nothing otherwise. -/
def sepText (sep : Option String) (rest : List (List (String × Value))) : String :=
  match sep, rest with
  | some sp, _ :: _ => sp
  | _, _ => ""

mutual

/-- Renders a token list: the semantics of the statement sequence emitted by
`generate_inner_code` (codegen.rs lines 56–75), threads the environment
through the siblings and returns the produced text together with the
environment extended by the emitted `let` bindings. -/
def renderTokens : List QuoteToken → List (String × String) → Env →
    Except RenderErr (String × Env)
  | [], _, e => .ok ("", e)
  | t :: ts, m, e => do
    let (s1, e1) ← renderToken t m e
    let (s2, e2) ← renderTokens ts m e1
    .ok (s1 ++ s2, e2)

/-- Renders one token: the semantics of `generate_literal_code`,
`generate_variable_code` (codegen.rs lines 82–101),
`generate_hidden_variable_code` (lines 103–119) and `generate_group_code`
(lines 143–178). A `Variable` renames through the mapping, looks the name up
and appends its display form, plus a `let alias = value` when aliased; a
`HiddenVariable` emits no code at all unless aliased with other than `"_"`,
in which case it emits only the `let`; a `Group` computes its lanes, zips
them and renders its children once per zipped row — note the group receives
a fresh mapping built only from its lanes, as `generate_group_code` builds
`mapping` from scratch, and later inserts of a `HashMap` win, hence
`reverse`. -/
def renderToken : QuoteToken → List (String × String) → Env →
    Except RenderErr (String × Env)
  | QuoteToken.Literal s, _, e => .ok (s, e)
  | QuoteToken.Variable ident inner, m, e =>
    match lookupEnv e (resolveName m ident) with
    | none => .error (.unresolved (resolveName m ident))
    | some v => do
      let s ← valToString v
      match inner with
      | some i => .ok (s, (i, v) :: e)
      | none => .ok (s, e)
  | QuoteToken.HiddenVariable ident inner, m, e =>
    match inner with
    | some i =>
      if i = "_" then .ok ("", e)
      else
        match lookupEnv e (resolveName m ident) with
        | none => .error (.unresolved (resolveName m ident))
        | some v => .ok ("", (i, v) :: e)
    | none => .ok ("", e)
  | QuoteToken.Group children sep, _, e => do
    let lanes := get_variable_names children
    let resolved ← resolveLanes e lanes
    if distinctNames (resolved.map Prod.fst) then do
      let n ← zipLen (resolved.map fun p => p.2.length)
      let s ← renderRows children lanes.reverse e ((List.range n).map (laneRow resolved)) sep
      .ok (s, e)
    else .error .duplicatePattern

/-- Renders the zipped iterations of a group (the `for` loop emitted at
codegen.rs lines 168–176): one body per row, the separator after every
iteration except the last, the empty string when there is no row. -/
def renderRows : List QuoteToken → List (String × String) → Env →
    List (List (String × Value)) → Option String → Except RenderErr String
  | _, _, _, [], _ => .ok ""
  | children, m, e, row :: rest, sep => do
    let (s, _) ← renderTokens children m (extendEnv e row)
    let srest ← renderRows children m e rest sep
    .ok (s ++ sepText sep rest ++ srest)

end

/-- Models the program emitted by `generate_code` (codegen.rs lines 37–54):
render the whole token list in an empty compile-time mapping, returning the
accumulated `res` string. -/
def render (tokens : List QuoteToken) (e : Env) : Except RenderErr String :=
  (renderTokens tokens [] e).map Prod.fst

/-! ## Auxiliary definitions used only by the statements and proofs below -/

/-- Minimum of `leadingWsBytes` over the non-blank lines, `none` when every
line is blank: the explicit "minimum" the spec describes, to be related to
the fold inside `get_indent_level`. -/
def minIndent : List (List Char) → Option Nat
  | [] => none
  | l :: ls =>
    if lineIsBlank l then minIndent ls
    else
      match minIndent ls with
      | none => some (leadingWsBytes l)
      | some m => some (min (leadingWsBytes l) m)

/-- Join a list of strings with a separator between consecutive elements:
the shape of a group's output, making "separator appended after every
iteration except the last" explicit. -/
def joinSep (sp : String) : List String → String
  | [] => ""
  | [s] => s
  | s :: rest => s ++ sp ++ joinSep sp rest

/-- The per-iteration body texts of a group: each zipped row rendered
against the environment extended with that row's pattern bindings. -/
def bodyTexts (children : List QuoteToken) (m : List (String × String)) (e : Env) :
    List (List (String × Value)) → Except RenderErr (List String)
  | [] => .ok []
  | row :: rest => do
    let (s, _) ← renderTokens children m (extendEnv e row)
    let r ← bodyTexts children m e rest
    .ok (s :: r)

/-- The template family `"$( … $( x )* … )*"` with `d` nested groups, as a
char sequence: depth 0 is the bare literal `x`. -/
def nestedTemplate : Nat → List Char
  | 0 => ['x']
  | d + 1 => '$' :: '(' :: nestedTemplate d ++ [')', '*']

/-- The token the parser produces for `"$("` ++ `nestedTemplate d` ++ `")*"`:
`d + 1` nested groups around the literal `x`. -/
def nestedToken : Nat → QuoteToken
  | 0 => QuoteToken.Group [QuoteToken.Literal "x"] none
  | d + 1 => QuoteToken.Group [nestedToken d] none

/-- The state of `get_variable_names`' `inner_variables` set after a token
list has been processed, used to decompose the lane computation. -/
def seenAfter : List QuoteToken → List String → List String
  | [], seen => seen
  | QuoteToken.Variable v inner :: ts, seen =>
    if seenContains v seen then seenAfter ts seen
    else
      match inner with
      | some inn => seenAfter ts (inn :: seen)
      | none => seenAfter ts seen
  | QuoteToken.HiddenVariable v inner :: ts, seen =>
    if seenContains v seen then seenAfter ts seen
    else
      match inner with
      | some inn => seenAfter ts (inn :: seen)
      | none => seenAfter ts seen
  | _ :: ts, seen => seenAfter ts seen

/-! ## Theorems -/

/-- A non-backslash head is copied verbatim by `unescape`. -/
theorem unescape_ne_backslash (c : Char) (rest : List Char) (hc : c ≠ '\\') :
    unescape (c :: rest) = c :: unescape rest := by
  cases rest with
  | nil => simp [unescape, hc]
  | cons c2 rest' =>
    cases rest' with
    | nil => simp [unescape, hc]
    | cons c3 rest'' =>
      cases rest'' with
      | nil => simp [unescape, hc]
      | cons c4 rest''' => simp [unescape, hc]

/-- Strings without a backslash pass through `unescape` unchanged. -/
theorem unescape_no_backslash (l : List Char) (h : '\\' ∉ l) : unescape l = l := by
  induction l with
  | nil => rfl
  | cons c rest ih =>
    have hc : c ≠ '\\' := fun hc => h (hc ▸ List.mem_cons_self c rest)
    have hr : '\\' ∉ rest := fun hm => h (List.mem_cons_of_mem c hm)
    rw [unescape_ne_backslash c rest hc, ih hr]

/-- C7: `unescape` decodes `\\`, `\n`, `\r`, `\t` and `\xHH` for hex digits
`H`; every other `\c` sequence, a trailing lone backslash, and `\x` followed
by invalid or missing hex digits pass through unchanged, backslash included;
characters outside any escape are copied, and the function is total (it is a
Lean `def` into `List Char`, so it cannot fail). -/
theorem unescape_spec :
    (∀ rest, unescape (' ' :: rest) = ' ' :: unescape rest) ∧
    (∀ rest, unescape ('\\' :: '\\' :: rest) = '\\' :: unescape rest) ∧
    (∀ rest, unescape ('\\' :: 'n' :: rest) = '\n' :: unescape rest) ∧
    (∀ rest, unescape ('\\' :: 'r' :: rest) = '\r' :: unescape rest) ∧
    (∀ rest, unescape ('\\' :: 't' :: rest) = '\t' :: unescape rest) ∧
    (∀ h1 h2 rest, isAsciiHexdigit h1 = true → isAsciiHexdigit h2 = true →
      unescape ('\\' :: 'x' :: h1 :: h2 :: rest) =
        byte_from_hex_chars h1 h2 :: unescape rest) ∧
    (∀ h1 h2 rest, ¬(isAsciiHexdigit h1 = true ∧ isAsciiHexdigit h2 = true) →
      unescape ('\\' :: 'x' :: h1 :: h2 :: rest) =
        '\\' :: 'x' :: h1 :: h2 :: unescape rest) ∧
    (∀ h1, unescape ['\\', 'x', h1] = ['\\', 'x', h1]) ∧
    (unescape ['\\', 'x'] = ['\\', 'x']) ∧
    (∀ c rest, c ≠ '\\' → c ≠ 'n' → c ≠ 'r' → c ≠ 't' → c ≠ 'x' →
      unescape ('\\' :: c :: rest) = '\\' :: c :: unescape rest) ∧
    (unescape ['\\'] = ['\\']) ∧
    (∀ l, '\\' ∉ l → unescape l = l) := by
  refine ⟨?_, ?_, ?_, ?_, ?_, ?_, ?_, ?_, rfl, ?_, rfl, unescape_no_backslash⟩
  · intro rest; simp [unescape]
  · intro rest; simp [unescape]
  · intro rest; simp [unescape]
  · intro rest; simp [unescape]
  · intro rest; simp [unescape]
  · intro h1 h2 rest hh1 hh2; simp [unescape, hh1, hh2]
  · intro h1 h2 rest hh
    by_cases hh1 : isAsciiHexdigit h1 = true
    · have hh2 : ¬ isAsciiHexdigit h2 = true := fun h2t => hh ⟨hh1, h2t⟩
      simp [unescape, hh1, hh2]
    · simp [unescape, hh1]
  · intro h1; simp [unescape]
  · intro c rest hbs hn hr ht hx
    simp [unescape, hbs, hn, hr, ht, hx]

/-- Witness for `unescape_spec` at concrete inputs discharging its
hypotheses: a valid hex escape decodes, an invalid one passes through, an
unknown escape passes through, and a backslash-free string is unchanged. -/
theorem unescape_spec_witness :
    unescape ['\\', 'x', '4', '1'] = ['A'] ∧
    unescape ['\\', 'x', 'g', '1'] = ['\\', 'x', 'g', '1'] ∧
    unescape ['\\', 'q'] = ['\\', 'q'] ∧
    unescape ['h', 'i'] = ['h', 'i'] := by
  refine ⟨?_, ?_, ?_, ?_⟩
  · have h := unescape_spec.2.2.2.2.2.1 '4' '1' [] (by decide) (by decide)
    simpa [unescape] using h.trans (by decide)
  · have h := unescape_spec.2.2.2.2.2.2.1 'g' '1' [] (by decide)
    exact h.trans (by rw [unescape])
  · have h := unescape_spec.2.2.2.2.2.2.2.2.2.1 'q' [] (by decide) (by decide)
      (by decide) (by decide) (by decide)
    exact h.trans (by rw [unescape])
  · exact unescape_spec.2.2.2.2.2.2.2.2.2.2.2 ['h', 'i'] (by decide)

/-- `splitNl` always yields at least one line. -/
theorem splitNl_ne_nil (l : List Char) : splitNl l ≠ [] := by
  cases l with
  | nil => simp [splitNl]
  | cons c rest =>
    by_cases hc : c = '\n'
    · simp [splitNl, hc]
    · simp only [splitNl, if_neg hc]
      cases h : splitNl rest <;> simp

/-- No line produced by `splitNl` contains a newline. -/
theorem not_nl_mem_splitNl (l : List Char) : ∀ x ∈ splitNl l, '\n' ∉ x := by
  induction l with
  | nil =>
    intro x hx
    simp [splitNl] at hx
    simp [hx]
  | cons c rest ih =>
    intro x hx
    by_cases hc : c = '\n'
    · simp only [splitNl, if_pos hc, List.mem_cons] at hx
      rcases hx with h | h
      · simp [h]
      · exact ih x h
    · simp only [splitNl, if_neg hc] at hx
      cases hsp : splitNl rest with
      | nil => exact absurd hsp (splitNl_ne_nil rest)
      | cons l2 ls2 =>
        rw [hsp] at hx
        rcases List.mem_cons.1 hx with h | h
        · subst h
          intro hmem
          rcases List.mem_cons.1 hmem with h | h
          · exact hc h.symm
          · exact ih l2 (hsp ▸ List.mem_cons_self l2 ls2) h
        · exact ih x (hsp ▸ List.mem_cons_of_mem l2 h)

/-- A newline-free char sequence is a single line. -/
theorem splitNl_of_no_nl (l : List Char) (h : '\n' ∉ l) : splitNl l = [l] := by
  induction l with
  | nil => rfl
  | cons c rest ih =>
    have hc : c ≠ '\n' := fun hc => h (hc ▸ List.mem_cons_self c rest)
    have hr : '\n' ∉ rest := fun hm => h (List.mem_cons_of_mem c hm)
    simp [splitNl, hc, ih hr]

/-- Splitting distributes over a newline that follows a newline-free
prefix. -/
theorem splitNl_append (l r : List Char) (h : '\n' ∉ l) :
    splitNl (l ++ '\n' :: r) = l :: splitNl r := by
  induction l with
  | nil => simp [splitNl]
  | cons c rest ih =>
    have hc : c ≠ '\n' := fun hc => h (hc ▸ List.mem_cons_self c rest)
    have hr : '\n' ∉ rest := fun hm => h (List.mem_cons_of_mem c hm)
    simp only [List.cons_append, splitNl, if_neg hc]
    rw [show rest.append ('\n' :: r) = rest ++ '\n' :: r from rfl, ih hr]

/-- `splitNl` inverts `joinNl` on a non-empty list of newline-free lines. -/
theorem splitNl_joinNl (ls : List (List Char)) (hne : ls ≠ [])
    (h : ∀ x ∈ ls, '\n' ∉ x) : splitNl (joinNl ls) = ls := by
  induction ls with
  | nil => exact absurd rfl hne
  | cons l rest ih =>
    cases rest with
    | nil => exact splitNl_of_no_nl l (h l (List.mem_cons_self l []))
    | cons l2 ls2 =>
      have hj : joinNl (l :: l2 :: ls2) = l ++ '\n' :: joinNl (l2 :: ls2) := rfl
      rw [hj, splitNl_append l _ (h l (List.mem_cons_self l (l2 :: ls2))),
        ih (by simp) (fun x hx => h x (List.mem_cons_of_mem l hx))]

/-- `joinNl` inverts `splitNl`. -/
theorem joinNl_splitNl (l : List Char) : joinNl (splitNl l) = l := by
  induction l with
  | nil => rfl
  | cons c rest ih =>
    by_cases hc : c = '\n'
    · subst hc
      have hs : splitNl ('\n' :: rest) = [] :: splitNl rest := by simp [splitNl]
      rw [hs]
      cases hsp : splitNl rest with
      | nil => exact absurd hsp (splitNl_ne_nil rest)
      | cons l2 ls2 =>
        have hj : joinNl ([] :: l2 :: ls2) = '\n' :: joinNl (l2 :: ls2) := rfl
        rw [hj, ← hsp, ih]
    · simp only [splitNl, if_neg hc]
      cases hsp : splitNl rest with
      | nil => exact absurd hsp (splitNl_ne_nil rest)
      | cons l2 ls2 =>
        cases ls2 with
        | nil =>
          have : joinNl [c :: l2] = c :: joinNl [l2] := rfl
          rw [this, ← hsp, ih]
        | cons l3 ls3 =>
          have : joinNl ((c :: l2) :: l3 :: ls3) = c :: joinNl (l2 :: l3 :: ls3) := rfl
          rw [this, ← hsp, ih]

/-- `utf8Len` of a cons. -/
theorem utf8Len_cons (c : Char) (l : List Char) :
    utf8Len (c :: l) = c.utf8Size + utf8Len l := by
  simp [utf8Len]

/-- A successful byte slice removes a prefix of whole characters whose byte
lengths sum to exactly the requested amount. -/
theorem dropBytes_spec (l : List Char) : ∀ (n : Nat) (r : List Char),
    dropBytes n l = some r →
    ∃ k, k ≤ l.length ∧ r = l.drop k ∧ utf8Len (l.take k) = n := by
  induction l with
  | nil =>
    intro n r h
    cases n with
    | zero =>
      refine ⟨0, by simp, ?_, by simp [utf8Len]⟩
      simpa [dropBytes] using h.symm
    | succ m => simp [dropBytes] at h
  | cons c cs ih =>
    intro n r h
    cases n with
    | zero =>
      refine ⟨0, by simp, ?_, by simp [utf8Len]⟩
      simpa [dropBytes] using h.symm
    | succ m =>
      simp only [dropBytes] at h
      by_cases hsz : c.utf8Size ≤ m + 1
      · rw [if_pos hsz] at h
        obtain ⟨k, hk, hr, hlen⟩ := ih (m + 1 - c.utf8Size) r h
        refine ⟨k + 1, by simpa using hk, by simpa using hr, ?_⟩
        rw [List.take_succ_cons, utf8Len_cons, hlen]
        omega
      · rw [if_neg hsz] at h
        exact absurd h (by simp)

/-- `unindentLine` either keeps the line or drops a char prefix of it. -/
theorem unindentLine_shape (ind : Option Nat) (l r : List Char)
    (h : unindentLine ind l = some r) : r = l ∨ ∃ k, r = l.drop k := by
  cases ind with
  | none =>
    left
    simpa [unindentLine] using h.symm
  | some n =>
    simp only [unindentLine] at h
    by_cases hlt : n < utf8Len l
    · rw [if_pos hlt] at h
      obtain ⟨k, _, hr, _⟩ := dropBytes_spec l n r h
      exact Or.inr ⟨k, hr⟩
    · rw [if_neg hlt] at h
      left
      simpa using h.symm

/-- `unindentLines` preserves the number of lines. -/
theorem unindentLines_length (ind : Option Nat) :
    ∀ (ls ls' : List (List Char)), unindentLines ind ls = some ls' →
    ls'.length = ls.length := by
  intro ls
  induction ls with
  | nil =>
    intro ls' h
    simp [unindentLines] at h
    simp [← h]
  | cons l rest ih =>
    intro ls' h
    simp only [unindentLines, Option.bind_eq_bind] at h
    cases hl : unindentLine ind l with
    | none => rw [hl] at h; simp at h
    | some l' =>
      rw [hl] at h
      cases hr : unindentLines ind rest with
      | none => rw [hr] at h; simp at h
      | some rest' =>
        rw [hr] at h
        simp at h
        rw [← h]
        simp [ih rest' hr]

/-- `unindentLines` acts index-wise through `unindentLine`. -/
theorem unindentLines_getD (ind : Option Nat) :
    ∀ (ls ls' : List (List Char)), unindentLines ind ls = some ls' →
    ∀ i, i < ls.length → unindentLine ind (ls.getD i []) = some (ls'.getD i []) := by
  intro ls
  induction ls with
  | nil => intro ls' _ i hi; simp at hi
  | cons l rest ih =>
    intro ls' h i hi
    simp only [unindentLines, Option.bind_eq_bind] at h
    cases hl : unindentLine ind l with
    | none => rw [hl] at h; simp at h
    | some l' =>
      rw [hl] at h
      cases hr : unindentLines ind rest with
      | none => rw [hr] at h; simp at h
      | some rest' =>
        rw [hr] at h
        simp at h
        rw [← h]
        cases i with
        | zero => simpa using hl
        | succ j =>
          have hj : j < rest.length := by simpa using hi
          simpa using ih rest' hr j hj

/-- All lines member of `unindentLines`' output come from `unindentLine`. -/
theorem unindentLines_no_nl (ind : Option Nat) :
    ∀ (ls ls' : List (List Char)), unindentLines ind ls = some ls' →
    (∀ x ∈ ls, '\n' ∉ x) → ∀ y ∈ ls', '\n' ∉ y := by
  intro ls
  induction ls with
  | nil =>
    intro ls' h _ y hy
    simp [unindentLines] at h
    rw [h] at hy
    simp at hy
  | cons l rest ih =>
    intro ls' h hnl y hy
    simp only [unindentLines, Option.bind_eq_bind] at h
    cases hl : unindentLine ind l with
    | none => rw [hl] at h; simp at h
    | some l' =>
      rw [hl] at h
      cases hr : unindentLines ind rest with
      | none => rw [hr] at h; simp at h
      | some rest' =>
        rw [hr] at h
        simp at h
        rw [← h] at hy
        rcases List.mem_cons.1 hy with hy1 | hy2
        · subst hy1
          have hln : '\n' ∉ l := hnl l (List.mem_cons_self l rest)
          rcases unindentLine_shape ind l y hl with heq | ⟨k, hk⟩
          · exact heq ▸ hln
          · exact hk ▸ fun hm => hln (List.drop_subset k l hm)
        · exact ih rest' hr (fun x hx => hnl x (List.mem_cons_of_mem l hx)) y hy2

/-- The fold inside `get_indent_level` computes exactly the minimum of
`leadingWsBytes` over the non-blank lines. -/
theorem get_indent_level_eq_minIndent (source : List Char) :
    get_indent_level source = minIndent (splitNl source) := by
  have gen : ∀ (lines : List (List Char)) (acc : Option Nat),
      lines.foldl
        (fun acc line =>
          if lineIsBlank line then acc
          else
            match acc with
            | none => some (leadingWsBytes line)
            | some m => some (min m (leadingWsBytes line)))
        acc =
      match acc with
      | none => minIndent lines
      | some a =>
        match minIndent lines with
        | none => some a
        | some m => some (min a m) := by
    intro lines
    induction lines with
    | nil => intro acc; cases acc <;> rfl
    | cons l ls ih =>
      intro acc
      by_cases hb : lineIsBlank l
      · rw [List.foldl_cons, if_pos hb, ih acc]
        cases acc <;> simp [minIndent, hb]
      · rw [List.foldl_cons, if_neg hb]
        cases acc with
        | none =>
          rw [ih (some (leadingWsBytes l))]
          simp only [minIndent, if_neg hb]
        | some a =>
          rw [ih (some (min a (leadingWsBytes l)))]
          simp only [minIndent, if_neg hb]
          cases minIndent ls with
          | none => simp
          | some m => simp [Nat.min_assoc]
  have h := gen (splitNl source) none
  simpa [get_indent_level] using h

/-- When the minimum is undefined, every line is blank. -/
theorem minIndent_none_of :
    ∀ (ls : List (List Char)), minIndent ls = none →
    ∀ l ∈ ls, lineIsBlank l = true := by
  intro ls
  induction ls with
  | nil => intro _ l hl; simp at hl
  | cons hd tl ih =>
    intro h l hl
    simp only [minIndent] at h
    by_cases hb : lineIsBlank hd
    · rcases List.mem_cons.1 hl with heq | hmem
      · subst heq; exact hb
      · exact ih (by rwa [if_pos hb] at h) l hmem
    · rw [if_neg hb] at h
      cases htl : minIndent tl <;> rw [htl] at h <;> simp at h

/-- The minimum is a lower bound on every non-blank line's leading
whitespace. -/
theorem minIndent_le :
    ∀ (ls : List (List Char)) (l : List Char), l ∈ ls → lineIsBlank l = false →
    ∀ n, minIndent ls = some n → n ≤ leadingWsBytes l := by
  intro ls
  induction ls with
  | nil => intro l hl; simp at hl
  | cons hd tl ih =>
    intro l hl hb n hmin
    simp only [minIndent] at hmin
    rcases List.mem_cons.1 hl with heq | hmem
    · subst heq
      rw [if_neg (by simp [hb])] at hmin
      cases htl : minIndent tl with
      | none => rw [htl] at hmin; simp at hmin; omega
      | some m =>
        rw [htl] at hmin
        simp at hmin
        subst hmin
        exact Nat.min_le_left _ _
    · by_cases hbhd : lineIsBlank hd
      · rw [if_pos hbhd] at hmin
        exact ih l hmem hb n hmin
      · rw [if_neg hbhd] at hmin
        cases htl : minIndent tl with
        | none =>
          rw [htl] at hmin
          exact absurd (minIndent_none_of tl htl l hmem) (by simp [hb])
        | some m =>
          rw [htl] at hmin
          simp at hmin
          subst hmin
          exact le_trans (Nat.min_le_right _ _) (ih l hmem hb m htl)

/-- The minimum is attained by some non-blank line. -/
theorem minIndent_attained :
    ∀ (ls : List (List Char)) (n : Nat), minIndent ls = some n →
    ∃ l ∈ ls, lineIsBlank l = false ∧ leadingWsBytes l = n := by
  intro ls
  induction ls with
  | nil => intro n h; simp [minIndent] at h
  | cons hd tl ih =>
    intro n h
    simp only [minIndent] at h
    by_cases hb : lineIsBlank hd
    · rw [if_pos hb] at h
      obtain ⟨l, hmem, hbl, hval⟩ := ih n h
      exact ⟨l, List.mem_cons_of_mem hd hmem, hbl, hval⟩
    · rw [if_neg hb] at h
      cases htl : minIndent tl with
      | none =>
        rw [htl] at h
        simp at h
        exact ⟨hd, List.mem_cons_self hd tl, by simp [hb], h⟩
      | some m =>
        rw [htl] at h
        simp at h
        rw [Nat.min_def] at h
        by_cases hle : leadingWsBytes hd ≤ m
        · rw [if_pos hle] at h
          exact ⟨hd, List.mem_cons_self hd tl, by simp [hb], h⟩
        · rw [if_neg hle] at h
          obtain ⟨l, hmem, hbl, hval⟩ := ih m htl
          exact ⟨l, List.mem_cons_of_mem hd hmem, hbl, by omega⟩

/-- With no indent to strip (every line blank), `unindentLines` is the
identity. -/
theorem unindentLines_none : ∀ ls : List (List Char), unindentLines none ls = some ls := by
  intro ls
  induction ls with
  | nil => rfl
  | cons l rest ih => simp [unindentLines, unindentLine, ih]

/-- C6 counterexample: the claim says `unindent` removes the minimum
(here 2) leading characters from every line, which would turn the blank
second line `"  "` into `""` and give `"a\n"`; the code leaves a line whose
length does not exceed the indent unchanged and gives `"a\n  "`. -/
theorem unindent_counterexample :
    unindentStr "  a\n  " = some "a\n  " ∧
    some ("a\n  " : String) ≠ some ("a\n" : String) :=
  ⟨rfl, by decide⟩

/-- C6 (amended): when `unindent` returns (its byte slice can panic inside a
multi-byte char), the indent it used is exactly the minimum leading-
whitespace byte run over non-blank lines (attained by one of them, and with
no indent defined every line is returned unchanged); the line count is
preserved; and every line longer in bytes than the minimum loses a prefix of
whole characters totalling exactly that many bytes, while every other line —
necessarily whitespace-only — is left unchanged. -/
theorem unindent_amended (src out : String) (h : unindentStr src = some out) :
    (splitNl out.data).length = (splitNl src.data).length ∧
    (∀ n, get_indent_level src.data = some n →
      (∀ line ∈ splitNl src.data, lineIsBlank line = false → n ≤ leadingWsBytes line) ∧
      (∃ line ∈ splitNl src.data, lineIsBlank line = false ∧ leadingWsBytes line = n)) ∧
    (get_indent_level src.data = none → out = src) ∧
    (∀ n, get_indent_level src.data = some n → ∀ i, i < (splitNl src.data).length →
      if n < utf8Len ((splitNl src.data).getD i []) then
        ∃ k, (splitNl out.data).getD i [] = ((splitNl src.data).getD i []).drop k ∧
          utf8Len (((splitNl src.data).getD i []).take k) = n
      else (splitNl out.data).getD i [] = (splitNl src.data).getD i []) := by
  obtain ⟨ls', hls', hout⟩ :
      ∃ ls', unindentLines (get_indent_level src.data) (splitNl src.data) = some ls' ∧
        out.data = joinNl ls' := by
    simp only [unindentStr, unindent] at h
    cases hls : unindentLines (get_indent_level src.data) (splitNl src.data) with
    | none => rw [hls] at h; simp at h
    | some ls' =>
      rw [hls] at h
      simp at h
      exact ⟨ls', rfl, by rw [← h]⟩
  have hlen : ls'.length = (splitNl src.data).length :=
    unindentLines_length _ _ _ hls'
  have hnonempty : ls' ≠ [] := by
    intro hcon
    rw [hcon] at hlen
    exact splitNl_ne_nil src.data (List.length_eq_zero.1 hlen.symm)
  have hnl : ∀ y ∈ ls', '\n' ∉ y :=
    unindentLines_no_nl _ _ _ hls' (not_nl_mem_splitNl src.data)
  have hsplit : splitNl out.data = ls' := by
    rw [hout]
    exact splitNl_joinNl ls' hnonempty hnl
  refine ⟨by rw [hsplit]; exact hlen, ?_, ?_, ?_⟩
  · intro n hn
    rw [get_indent_level_eq_minIndent] at hn
    exact ⟨fun line hmem hb => minIndent_le _ line hmem hb n hn,
      minIndent_attained _ n hn⟩
  · intro hnone
    rw [hnone, unindentLines_none] at hls'
    have : ls' = splitNl src.data := by
      injection hls' with h'
      exact h'.symm
    rw [this, joinNl_splitNl] at hout
    cases out with
    | mk l =>
      cases src with
      | mk l2 =>
        have : l = l2 := by simpa using hout
        rw [this]
  · intro n hn i hi
    have hline := unindentLines_getD _ _ _ hls' i hi
    rw [hn] at hline
    simp only [unindentLine] at hline
    rw [hsplit]
    by_cases hlt : n < utf8Len ((splitNl src.data).getD i [])
    · rw [if_pos hlt] at hline
      rw [if_pos hlt]
      obtain ⟨k, _, hr, hlen'⟩ := dropBytes_spec _ n _ hline
      exact ⟨k, hr.symm ▸ rfl, hlen'⟩
    · rw [if_neg hlt] at hline
      rw [if_neg hlt]
      injection hline with h'
      exact h'.symm

/-- Witness for `unindent_amended`: the two-line input `"  a\n    b"` has
minimum indent 2 and unindents to `"a\n  b"`, preserving the line count. -/
theorem unindent_amended_witness :
    (splitNl ("a\n  b" : String).data).length =
      (splitNl ("  a\n    b" : String).data).length :=
  (unindent_amended "  a\n    b" "a\n  b" rfl).1

/-- C8: parse failure is fatal and total. Each malformed-input family of the
claim is evaluated: an unterminated group, a separator without its `*`, an
identifier starting with a digit, and a brace binding with an invalid
character all end in the corresponding panic of the source; the result type
`Except` carries no node list alongside the error, so no partial result is
returned. -/
theorem parse_malformed_fatal :
    parse "$(unterminated" = .error (.fatal "unexpected end of variable group") ∧
    parse "$(x);;" = .error (.fatal "expected star after variable group") ∧
    parse "$1foo" = .error (.fatal "expected identifier") ∧
    parse "$\x7bfoo|" = .error (.fatal "expected colon or closing brace") :=
  ⟨rfl, rfl, rfl, rfl⟩

/-- C4 counterexample: after the group's closing paren, the separator text
`(a(b)c)*` would be scanned to the matching close paren under the claim,
yielding separator `a(b)c`; the code stops at the first close paren, reads
`a(b`, then demands `*` but finds `c` and panics. -/
theorem separator_balancing_counterexample :
    parse_group_separator ("(a(b)c)*".data) =
      .error (.fatal "expected star after variable group") ∧
    parse_group_separator ("(a(b)c)*".data) ≠ .ok (some "a(b)c", []) :=
  ⟨rfl, fun hcon => Except.noConfusion hcon⟩

/-- The separator scan consumes exactly up to the first unescaped close
paren. -/
theorem scanSeparator_no_rparen (cs : List Char) (r : List Char) (h : ')' ∉ cs) :
    scanSeparator (cs ++ ')' :: r) = (cs, some r) := by
  induction cs with
  | nil => simp [scanSeparator]
  | cons c rest ih =>
    have hc : c ≠ ')' := fun hc => h (hc ▸ List.mem_cons_self c rest)
    have hr : ')' ∉ rest := fun hm => h (List.mem_cons_of_mem c hm)
    simp [scanSeparator, hc, ih hr]

/-- C4 (amended): a `*` right after the group's closing paren yields no
separator; a `(` makes the parser scan verbatim characters up to the first
`)` — with no balancing of nested parens — as the separator text, then
require a `*`; any other single character followed by `*` is that one-char
separator. -/
theorem parse_group_separator_spec :
    (∀ rest, parse_group_separator ('*' :: rest) = .ok (none, rest)) ∧
    (∀ cs rest, ')' ∉ cs →
      parse_group_separator ('(' :: cs ++ ')' :: '*' :: rest) =
        .ok (some (String.mk cs), rest)) ∧
    (∀ c rest, c ≠ '*' → c ≠ '(' →
      parse_group_separator (c :: '*' :: rest) = .ok (some (String.mk [c]), rest)) := by
  refine ⟨fun rest => by simp [parse_group_separator], ?_, ?_⟩
  · intro cs rest h
    have hscan : scanSeparator (cs ++ ')' :: '*' :: rest) = (cs, some ('*' :: rest)) :=
      scanSeparator_no_rparen cs ('*' :: rest) h
    simp [parse_group_separator, hscan]
  · intro c rest h1 h2
    simp [parse_group_separator, h1, h2]

/-- Witness for `parse_group_separator_spec`: concrete separators `(=>)*`
and `;*`, whose scanned text contains no close paren. -/
theorem parse_group_separator_spec_witness :
    parse_group_separator ("(=>)*".data) = .ok (some "=>", []) ∧
    parse_group_separator (";*".data) = .ok (some ";", []) := by
  constructor
  · exact parse_group_separator_spec.2.1 ['=', '>'] [] (by decide)
  · exact parse_group_separator_spec.2.2 ';' [] (by decide) (by decide)

/-- At top level, a trailing backslash after ordinary characters reaches the
escape arm with nothing left to consume: `source.next().unwrap()` panics. -/
theorem parse_toplevel_trailing_backslash :
    ∀ (cs : List Char) (toks : List QuoteToken) (lit : List Char) (fuel : Nat),
      (∀ c ∈ cs, c ≠ '@' ∧ c ≠ '$' ∧ c ≠ '\\') → cs.length + 2 ≤ fuel →
      parse_toplevel_f fuel (cs ++ ['\\']) toks lit =
        .error (.fatal "unwrap on empty source") := by
  intro cs
  induction cs with
  | nil =>
    intro toks lit fuel _ hf
    cases fuel with
    | zero => omega
    | succ f => simp [parse_toplevel_f]
  | cons c cs' ih =>
    intro toks lit fuel hclean hf
    cases fuel with
    | zero => omega
    | succ f =>
      obtain ⟨h1, h2, h3⟩ := hclean c (List.mem_cons_self c cs')
      simp only [List.cons_append, parse_toplevel_f, if_neg h1, if_neg h2, if_neg h3]
      exact ih toks (lit ++ [c]) f
        (fun x hx => hclean x (List.mem_cons_of_mem c hx)) (by simp at hf; omega)

/-- Inside a group body, a trailing backslash after ordinary characters
(open parens allowed, they only deepen the literal depth) panics the same
way. -/
theorem parse_group_loop_trailing_backslash :
    ∀ (cs : List Char) (toks : List QuoteToken) (lit : List Char) (depth : Nat) (fuel : Nat),
      (∀ c ∈ cs, c ≠ '@' ∧ c ≠ '$' ∧ c ≠ '\\' ∧ c ≠ ')') → cs.length + 2 ≤ fuel →
      parse_group_loop_f fuel (cs ++ ['\\']) toks lit depth =
        .error (.fatal "unwrap on empty source") := by
  intro cs
  induction cs with
  | nil =>
    intro toks lit depth fuel _ hf
    cases fuel with
    | zero => omega
    | succ f => simp [parse_group_loop_f]
  | cons c cs' ih =>
    intro toks lit depth fuel hclean hf
    cases fuel with
    | zero => omega
    | succ f =>
      obtain ⟨h1, h2, h3, h4⟩ := hclean c (List.mem_cons_self c cs')
      have hrest : ∀ x ∈ cs', x ≠ '@' ∧ x ≠ '$' ∧ x ≠ '\\' ∧ x ≠ ')' :=
        fun x hx => hclean x (List.mem_cons_of_mem c hx)
      have hlen : cs'.length + 2 ≤ f := by simp at hf; omega
      by_cases h5 : c = '('
      · simp only [List.cons_append, parse_group_loop_f, if_neg h1, if_neg h2, if_neg h3,
          if_pos h5]
        exact ih toks (lit ++ ['(']) (depth + 1) f hrest hlen
      · simp only [List.cons_append, parse_group_loop_f, if_neg h1, if_neg h2, if_neg h3,
          if_neg h5, if_neg h4]
        exact ih toks (lit ++ [c]) depth f hrest hlen

/-- One `parse_toplevel_f` step on a `$`. -/
theorem parse_toplevel_f_dollar (fuel : Nat) (rest : List Char) (toks : List QuoteToken)
    (lit : List Char) :
    parse_toplevel_f (fuel + 1) ('$' :: rest) toks lit =
      (do
        let r ← parse_binding_f fuel rest
        parse_toplevel_f fuel r.2 (flushLiteral toks lit ++ [r.1]) []) := by
  simp [parse_toplevel_f]

/-- `parse_binding_f` dispatches an open paren to `parse_group_f`. -/
theorem parse_binding_f_paren (fuel : Nat) (rest : List Char) :
    parse_binding_f (fuel + 1) ('(' :: rest) = parse_group_f fuel ('(' :: rest) := by
  simp [parse_binding_f]

/-- `parse_group_f` consumes the open paren and enters the loop. -/
theorem parse_group_f_paren (fuel : Nat) (rest : List Char) :
    parse_group_f (fuel + 1) ('(' :: rest) = parse_group_loop_f fuel rest [] [] 0 := by
  simp [parse_group_f]

/-- C10: a source ending in an unescaped backslash fails to parse — the
escape arm consumes the following character unconditionally and there is
none — both at top level and inside a group body; the error is the modelled
`unwrap` panic, so no node list is produced. -/
theorem parse_trailing_backslash_fails :
    (∀ cs : List Char, (∀ c ∈ cs, c ≠ '@' ∧ c ≠ '$' ∧ c ≠ '\\') →
      parse (String.mk (cs ++ ['\\'])) = .error (.fatal "unwrap on empty source")) ∧
    (∀ cs : List Char, (∀ c ∈ cs, c ≠ '@' ∧ c ≠ '$' ∧ c ≠ '\\' ∧ c ≠ ')') →
      parse (String.mk ('$' :: '(' :: cs ++ ['\\'])) =
        .error (.fatal "unwrap on empty source")) := by
  constructor
  · intro cs h
    show parse_toplevel_f (4 * (cs ++ ['\\']).length + 4) (cs ++ ['\\']) [] [] = _
    exact parse_toplevel_trailing_backslash cs [] [] _ h (by simp; omega)
  · intro cs h
    show parse_toplevel_f (4 * ('$' :: '(' :: cs ++ ['\\']).length + 4)
      ('$' :: '(' :: cs ++ ['\\']) [] [] = _
    simp only [List.cons_append]
    have harith : 4 * ('$' :: '(' :: (cs ++ ['\\'])).length + 4 =
        (4 * cs.length + 15) + 1 := by simp; omega
    rw [harith, parse_toplevel_f_dollar,
      show (4 * cs.length + 15 : Nat) = (4 * cs.length + 14) + 1 from rfl,
      parse_binding_f_paren,
      show (4 * cs.length + 14 : Nat) = (4 * cs.length + 13) + 1 from rfl,
      parse_group_f_paren,
      parse_group_loop_trailing_backslash cs [] [] 0 (4 * cs.length + 13) h (by omega)]
    rfl

/-- Witness for `parse_trailing_backslash_fails`: the concrete sources
`"lit\"` and `"$(ab\"`. -/
theorem parse_trailing_backslash_fails_witness :
    parse (String.mk (['l', 'i', 't'] ++ ['\\'])) =
      .error (.fatal "unwrap on empty source") ∧
    parse (String.mk ('$' :: '(' :: ['a', 'b'] ++ ['\\'])) =
      .error (.fatal "unwrap on empty source") :=
  ⟨parse_trailing_backslash_fails.1 ['l', 'i', 't'] (by decide),
   parse_trailing_backslash_fails.2 ['a', 'b'] (by decide)⟩

/-- One group-loop step on a `$`. -/
theorem parse_group_loop_f_dollar (fuel : Nat) (rest : List Char) (toks : List QuoteToken)
    (lit : List Char) (depth : Nat) :
    parse_group_loop_f (fuel + 1) ('$' :: rest) toks lit depth =
      (do
        let r ← parse_binding_f fuel rest
        parse_group_loop_f fuel r.2 (flushLiteral toks lit ++ [r.1]) [] depth) := by
  simp [parse_group_loop_f]

/-- One group-loop step on the closing paren at depth 0: separator parsing
ends the group. -/
theorem parse_group_loop_f_close (fuel : Nat) (rest : List Char) (toks : List QuoteToken)
    (lit : List Char) :
    parse_group_loop_f (fuel + 1) (')' :: rest) toks lit 0 =
      (do
        let r ← parse_group_separator rest
        .ok (QuoteToken.Group (flushLiteral toks lit) r.1, r.2)) := by
  simp [parse_group_loop_f]

/-- Parsing the nested-template family: a group whose body is the depth-`d`
template parses successfully with any sufficient fuel, producing the
`d + 1`-deep token. -/
theorem parse_group_nested :
    ∀ (d : Nat) (f : Nat) (rest : List Char),
      parse_group_f (f + 3 * d + 3) ('(' :: (nestedTemplate d ++ ')' :: '*' :: rest)) =
        .ok (nestedToken d, rest) := by
  intro d
  induction d with
  | zero =>
    intro f rest
    rw [show f + 3 * 0 + 3 = (f + 2) + 1 from by ring, parse_group_f_paren]
    show parse_group_loop_f ((f + 1) + 1) ('x' :: ')' :: '*' :: rest) [] [] 0 = _
    rw [show parse_group_loop_f ((f + 1) + 1) ('x' :: ')' :: '*' :: rest) [] [] 0 =
      parse_group_loop_f (f + 1) (')' :: '*' :: rest) [] ['x'] 0 from by
        simp [parse_group_loop_f]]
    rw [parse_group_loop_f_close]
    rfl
  | succ d ih =>
    intro f rest
    have hlist : ('(' :: (nestedTemplate (d + 1) ++ ')' :: '*' :: rest)) =
        '(' :: '$' :: '(' :: (nestedTemplate d ++ ')' :: '*' :: (')' :: '*' :: rest)) := by
      simp [nestedTemplate]
    rw [hlist, show f + 3 * (d + 1) + 3 = (((f + 3 * d + 3) + 1) + 1) + 1 from by ring,
      parse_group_f_paren, parse_group_loop_f_dollar, parse_binding_f_paren, ih f]
    show parse_group_loop_f ((f + 3 * d + 3) + 1) (')' :: '*' :: rest)
      (flushLiteral [] [] ++ [nestedToken d]) [] 0 = _
    rw [parse_group_loop_f_close]
    rfl

/-- Length of the nested template family. -/
theorem nestedTemplate_length (d : Nat) : (nestedTemplate d).length = 4 * d + 1 := by
  induction d with
  | zero => rfl
  | succ d ih => simp [nestedTemplate, ih]; ring

/-- The depth-`d + 1` nested template parses to the depth-`d` nested token. -/
theorem parse_nestedTemplate_ok (d : Nat) :
    parse (String.mk (nestedTemplate (d + 1))) = .ok [nestedToken d] := by
  show parse_toplevel_f (4 * (nestedTemplate (d + 1)).length + 4)
    (nestedTemplate (d + 1)) [] [] = _
  have hlist : nestedTemplate (d + 1) = '$' :: '(' :: (nestedTemplate d ++ [')', '*']) := by
    simp [nestedTemplate]
  rw [nestedTemplate_length, hlist,
    show 4 * (4 * (d + 1) + 1) + 4 = (16 * d + 23) + 1 from by ring,
    parse_toplevel_f_dollar,
    show (16 * d + 23 : Nat) = (16 * d + 22) + 1 from rfl,
    parse_binding_f_paren,
    show (16 * d + 22 : Nat) = (13 * d + 19) + 3 * d + 3 from by ring,
    parse_group_nested d (13 * d + 19) []]
  show parse_toplevel_f (16 * d + 23) [] (flushLiteral [] [] ++ [nestedToken d]) [] = _
  rw [show (16 * d + 23 : Nat) = (16 * d + 22) + 1 from rfl]
  simp [parse_toplevel_f, flushLiteral]

/-- C5 (amended): the parser imposes no maximum nesting depth — a
well-formed template of any nesting depth parses successfully (the Rust
recursion depth simply grows with the nesting), and no "too deeply nested"
error exists in the implementation. -/
theorem parse_no_nesting_limit (d : Nat) :
    parse (String.mk (nestedTemplate (d + 1))) = .ok [nestedToken d] :=
  parse_nestedTemplate_ok d

/-- C5 counterexample: there is no bound `L` past which deeper-nested
well-formed templates fail to parse — for any claimed bound, the template of
depth `L + 1` parses successfully, so no nesting-depth limit (and in
particular no "too deeply nested" error) exists. -/
theorem nesting_depth_counterexample :
    ¬ ∃ L : Nat, ∀ d : Nat, L < d →
      ∃ e, parse (String.mk (nestedTemplate d)) = .error e := by
  rintro ⟨L, hL⟩
  obtain ⟨e, he⟩ := hL (L + 1) (Nat.lt_succ_self L)
  rw [parse_nestedTemplate_ok L] at he
  exact Except.noConfusion he

/-- C1 counterexample: two unaliased references to the same variable within
one group's direct children open two lanes — `get_variable_names` records
only explicit aliases in its de-duplication set, so the second `$a` is not
recognized as a repeat and the lane pair is emitted twice. -/
theorem lane_dedup_counterexample :
    get_variable_names [QuoteToken.Variable "a" none, QuoteToken.Variable "a" none] =
      [("a", "__ext_format_inner_a"), ("a", "__ext_format_inner_a")] ∧
    ((get_variable_names
        [QuoteToken.Variable "a" none, QuoteToken.Variable "a" none]).map
      Prod.fst).count "a" = 2 :=
  ⟨rfl, rfl⟩

/-- C1 (amended): lane de-duplication is keyed on aliases, not variable
names. The lane list of a token sequence decomposes along the alias set; a
reference whose variable name matches an alias already recorded in the group
adds no lane (in particular, `@{v:a} … $a` yields a single lane reused by
the `$a` reference); but a variable name referenced twice without an alias
is not recorded and produces one lane per reference. -/
theorem lane_dedup_amended :
    (∀ pre suf seen, get_variable_names_go (pre ++ suf) seen =
      get_variable_names_go pre seen ++ get_variable_names_go suf (seenAfter pre seen)) ∧
    (∀ v a ts, get_variable_names
        (QuoteToken.HiddenVariable v (some a) :: QuoteToken.Variable a none :: ts) =
      (v, a) :: get_variable_names_go ts [a]) ∧
    (∀ ts seen v inner, seenContains v seen = true →
      get_variable_names_go (QuoteToken.Variable v inner :: ts) seen =
        get_variable_names_go ts seen) ∧
    (∀ v ts seen, seenContains v seen = false →
      get_variable_names_go
          (QuoteToken.Variable v none :: QuoteToken.Variable v none :: ts) seen =
        (v, "__ext_format_inner_" ++ v) :: (v, "__ext_format_inner_" ++ v) ::
          get_variable_names_go ts seen) := by
  refine ⟨?_, ?_, ?_, ?_⟩
  · intro pre
    induction pre with
    | nil => intro suf seen; simp [get_variable_names_go, seenAfter]
    | cons t ts ih =>
      intro suf seen
      cases t with
      | Literal s => simp [get_variable_names_go, seenAfter, ih]
      | Group g sep => simp [get_variable_names_go, seenAfter, ih]
      | Variable v inner =>
        by_cases hv : seenContains v seen
        · simp [get_variable_names_go, seenAfter, hv, ih]
        · cases inner with
          | none => simp [get_variable_names_go, seenAfter, hv, ih]
          | some inn => simp [get_variable_names_go, seenAfter, hv, ih]
      | HiddenVariable v inner =>
        by_cases hv : seenContains v seen
        · simp [get_variable_names_go, seenAfter, hv, ih]
        · cases inner with
          | none => simp [get_variable_names_go, seenAfter, hv, ih]
          | some inn => simp [get_variable_names_go, seenAfter, hv, ih]
  · intro v a ts
    simp [get_variable_names, get_variable_names_go, seenContains]
  · intro ts seen v inner h
    simp [get_variable_names_go, h]
  · intro v ts seen h
    simp [get_variable_names_go, h]

/-- Witness for `lane_dedup_amended`: a reference named like a recorded
alias adds no lane, while a duplicated unaliased reference adds two. -/
theorem lane_dedup_amended_witness :
    get_variable_names_go [QuoteToken.Variable "n" none] ["n"] = [] ∧
    get_variable_names_go
        [QuoteToken.Variable "a" none, QuoteToken.Variable "a" none] [] =
      [("a", "__ext_format_inner_a"), ("a", "__ext_format_inner_a")] :=
  ⟨(lane_dedup_amended.2.2.1 [] ["n"] "n" none (by decide)).trans rfl,
   (lane_dedup_amended.2.2.2 "a" [] [] (by decide)).trans rfl⟩

/-- C9: a `HiddenVariable` renders no text under any mapping and
environment — with no alias or with alias `"_"` it is compiled to no code at
all (the environment, and even the resolvability of the name, are
untouched); with any other alias it binds that alias to the resolved value
and still emits the empty string. -/
theorem hidden_variable_spec :
    (∀ ident m e, renderToken (QuoteToken.HiddenVariable ident none) m e = .ok ("", e)) ∧
    (∀ ident m e, renderToken (QuoteToken.HiddenVariable ident (some "_")) m e =
      .ok ("", e)) ∧
    (∀ ident a m e v, a ≠ "_" → lookupEnv e (resolveName m ident) = some v →
      renderToken (QuoteToken.HiddenVariable ident (some a)) m e =
        .ok ("", (a, v) :: e)) := by
  refine ⟨?_, ?_, ?_⟩
  · intro ident m e; simp [renderToken]
  · intro ident m e; simp [renderToken]
  · intro ident a m e v ha hv; simp [renderToken, ha, hv]

/-- Witness for `hidden_variable_spec`: a concrete hidden variable with a
real alias binds it and emits nothing. -/
theorem hidden_variable_spec_witness :
    renderToken (QuoteToken.HiddenVariable "x" (some "y")) [] [("x", Value.str "v")] =
      .ok ("", ("y", Value.str "v") :: [("x", Value.str "v")]) :=
  hidden_variable_spec.2.2 "x" "y" [] [("x", Value.str "v")] (Value.str "v")
    (by decide) rfl

/-- `sepText` with no further row is empty. -/
theorem sepText_nil (sep : Option String) : sepText sep [] = "" := by
  cases sep <;> rfl

/-- `sepText` before a further row is the separator (empty when none). -/
theorem sepText_cons (sep : Option String) (r : List (String × Value))
    (rest : List (List (String × Value))) :
    sepText sep (r :: rest) = sep.getD "" := by
  cases sep <;> rfl

/-- `bodyTexts` yields one body per row. -/
theorem bodyTexts_length (children : List QuoteToken) (m : List (String × String))
    (e : Env) : ∀ rows bs, bodyTexts children m e rows = .ok bs →
    bs.length = rows.length := by
  intro rows
  induction rows with
  | nil =>
    intro bs h
    simp only [bodyTexts] at h
    injection h with h
    simp [← h]
  | cons row rest ih =>
    intro bs h
    simp only [bodyTexts] at h
    cases hb : renderTokens children m (extendEnv e row) with
    | error err => rw [hb] at h; exact absurd h (by simp [Bind.bind, Except.bind])
    | ok p =>
      rw [hb] at h
      cases hrest : bodyTexts children m e rest with
      | error err =>
        rw [hrest] at h
        exact absurd h (by simp [Bind.bind, Except.bind])
      | ok bs' =>
        rw [hrest] at h
        simp only [Bind.bind, Except.bind] at h
        injection h with h
        rw [← h]
        simp [ih bs' hrest]

/-- The loop emitted for a group equals the per-iteration bodies joined by
the separator (the empty separator when none was given): the separator is
appended after every iteration except the last. -/
theorem renderRows_eq_joinSep (children : List QuoteToken) (m : List (String × String))
    (e : Env) (sep : Option String) :
    ∀ rows, renderRows children m e rows sep =
      Except.map (joinSep (sep.getD "")) (bodyTexts children m e rows) := by
  intro rows
  induction rows with
  | nil => simp [renderRows, bodyTexts, joinSep, Except.map]
  | cons row rest ih =>
    simp only [renderRows, bodyTexts]
    cases hb : renderTokens children m (extendEnv e row) with
    | error err => simp [Except.map, Bind.bind, Except.bind]
    | ok p =>
      simp only [Bind.bind, Except.bind]
      rw [ih]
      cases hrest : bodyTexts children m e rest with
      | error err => simp [Except.map]
      | ok bs =>
        cases rest with
        | nil =>
          have hbs : bs = [] := by
            have := bodyTexts_length children m e [] bs hrest
            simpa using this
          subst hbs
          simp [Except.map, sepText_nil, joinSep]
        | cons r2 rest2 =>
          have hbs : bs.length = rest2.length + 1 := by
            simpa using bodyTexts_length children m e (r2 :: rest2) bs hrest
          cases bs with
          | nil => simp at hbs
          | cons b bs' =>
            have hjoin : joinSep (sep.getD "") (p.1 :: b :: bs') =
                p.1 ++ sep.getD "" ++ joinSep (sep.getD "") (b :: bs') := rfl
            simp [Except.map, sepText_cons, hjoin, String.append_assoc]

/-- Separator occurrences counted through lengths: joining `n` bodies
contributes exactly `n - 1` copies of the separator (0 when `n ≤ 1`). -/
theorem joinSep_length (sp : String) : ∀ bs : List String,
    (joinSep sp bs).length = (bs.map String.length).sum + sp.length * (bs.length - 1) := by
  intro bs
  induction bs with
  | nil => simp [joinSep]
  | cons b rest ih =>
    cases rest with
    | nil => simp [joinSep]
    | cons b2 rest2 =>
      have hj : joinSep sp (b :: b2 :: rest2) = b ++ sp ++ joinSep sp (b2 :: rest2) := rfl
      rw [hj]
      simp only [String.length_append, ih, List.map_cons, List.sum_cons, List.length_cons,
        Nat.add_sub_cancel]
      ring

/-- C3: a group with a separator that renders `n` zipped rows produces the
`n` bodies joined by the separator text — `n - 1` separator occurrences (by
the length accounting of `joinSep_length`, 0 when `n ≤ 1`); with no rows the
group renders the empty string and the separator is never emitted. A
concrete three-row loop shows the `;` separator appearing exactly twice. -/
theorem separator_count :
    (∀ children m e sp rows, renderRows children m e rows (some sp) =
      Except.map (joinSep sp) (bodyTexts children m e rows)) ∧
    (∀ (sp : String) (bs : List String), (joinSep sp bs).length =
      (bs.map String.length).sum + sp.length * (bs.length - 1)) ∧
    (∀ children m e sp, renderRows children m e [] (some sp) = .ok "") ∧
    renderRows [] [] [] [[], [], []] (some ";") = .ok ";;" := by
  refine ⟨?_, joinSep_length, ?_, ?_⟩
  · intro children m e sp rows
    exact renderRows_eq_joinSep children m e (some sp) rows
  · intro children m e sp
    simp [renderRows]
  · simp only [renderRows, renderTokens, extendEnv, List.foldl_nil, Bind.bind, Except.bind]
    rfl

/-- `getD` with the scalar default commutes with wrapping a string list into
`Value.str` scalars. -/
theorem getD_map_str : ∀ (l : List String) (i : Nat),
    (l.map Value.str).getD i (Value.str "") = Value.str (l.getD i "") := by
  intro l
  induction l with
  | nil => intro i; simp
  | cons a l' ih =>
    intro i
    cases i with
    | zero => rfl
    | succ j => exact ih j

/-- Rendering the two-variable group body `$a$b` at one zipped row: the two
aliases resolve through the group mapping to the row's elements, whose
display forms are concatenated. -/
theorem two_lane_body (x y : String) (e : Env) :
    renderTokens [QuoteToken.Variable "a" none, QuoteToken.Variable "b" none]
      [("b", "__ext_format_inner_b"), ("a", "__ext_format_inner_a")]
      (("__ext_format_inner_b", Value.str y) ::
        ("__ext_format_inner_a", Value.str x) :: e) =
      .ok (x ++ y,
        ("__ext_format_inner_b", Value.str y) ::
          ("__ext_format_inner_a", Value.str x) :: e) := by
  simp [renderTokens, renderToken, resolveName, assocFind, lookupEnv, valToString,
    Bind.bind, Except.bind]

/-- `bodyTexts` over rows generated from an index list, when each index's
row renders to a known body. -/
theorem bodyTexts_map_ok (children : List QuoteToken) (m : List (String × String))
    (e : Env) (rowFn : Nat → List (String × Value)) (bodyFn : Nat → String) :
    ∀ idx : List Nat,
      (∀ i ∈ idx, ∃ e', renderTokens children m (extendEnv e (rowFn i)) =
        .ok (bodyFn i, e')) →
      bodyTexts children m e (idx.map rowFn) = .ok (idx.map bodyFn) := by
  intro idx
  induction idx with
  | nil => intro _; simp [bodyTexts]
  | cons i idx' ih =>
    intro h
    obtain ⟨e', he⟩ := h i (List.mem_cons_self i idx')
    simp only [List.map_cons, bodyTexts, he, Except.bind]
    rw [ih (fun j hj => h j (List.mem_cons_of_mem i hj))]
    rfl

/-- Mapping a binary combination of positional elements over
`range (min |as| |bs|)` is mapping it over `as.zip bs`. -/
theorem range_min_map_zip (f : String → String → String) :
    ∀ (as bs : List String),
      (List.range (min as.length bs.length)).map
        (fun i => f (as.getD i "") (bs.getD i "")) =
      (as.zip bs).map fun p => f p.1 p.2 := by
  intro as
  induction as with
  | nil => intro bs; simp
  | cons a as' ih =>
    intro bs
    cases bs with
    | nil => simp
    | cons b bs' =>
      have hmin : min (a :: as').length (b :: bs').length =
          min as'.length bs'.length + 1 := by
        simp [Nat.succ_min_succ]
      rw [hmin, List.range_succ_eq_map, List.map_cons, List.map_map]
      have hhead : f ((a :: as').getD 0 "") ((b :: bs').getD 0 "") = f a b := rfl
      have htail :
          ((fun i => f ((a :: as').getD i "") ((b :: bs').getD i "")) ∘ (· + 1)) =
            fun i => f (as'.getD i "") (bs'.getD i "") := rfl
      rw [hhead, htail, ih bs']
      rfl

/-- Folding `min` never exceeds the start value or any folded element. -/
theorem foldl_min_le : ∀ (ls : List Nat) (a : Nat),
    ls.foldl min a ≤ a ∧ ∀ x ∈ ls, ls.foldl min a ≤ x := by
  intro ls
  induction ls with
  | nil => intro a; exact ⟨le_refl a, by simp⟩
  | cons b ls' ih =>
    intro a
    simp only [List.foldl_cons]
    refine ⟨le_trans (ih (min a b)).1 (Nat.min_le_left a b), ?_⟩
    intro x hx
    rcases List.mem_cons.1 hx with h | h
    · subst h
      exact le_trans (ih (min a x)).1 (Nat.min_le_right a x)
    · exact (ih (min a b)).2 x h

/-- Folding `min` lands on the start value or on a folded element. -/
theorem foldl_min_mem : ∀ (ls : List Nat) (a : Nat),
    ls.foldl min a = a ∨ ls.foldl min a ∈ ls := by
  intro ls
  induction ls with
  | nil => intro a; exact Or.inl rfl
  | cons b ls' ih =>
    intro a
    simp only [List.foldl_cons]
    rcases ih (min a b) with h | h
    · rcases Nat.le_total a b with hab | hba
      · exact Or.inl (by rw [h, Nat.min_eq_left hab])
      · refine Or.inr ?_
        rw [h, Nat.min_eq_right hba]
        exact List.mem_cons_self b ls'
    · exact Or.inr (List.mem_cons_of_mem b h)

/-- The zipped iteration count is exactly the minimum of all lane lengths:
it is one of the lengths and a lower bound of all of them. -/
theorem zipLen_min (lens : List Nat) (n : Nat) (h : zipLen lens = .ok n) :
    n ∈ lens ∧ ∀ x ∈ lens, n ≤ x := by
  cases lens with
  | nil => simp [zipLen] at h
  | cons l ls =>
    simp only [zipLen] at h
    injection h with h
    subst h
    constructor
    · rcases foldl_min_mem ls l with h | h
      · rw [h]; exact List.mem_cons_self l ls
      · exact List.mem_cons_of_mem l h
    · intro x hx
      rcases List.mem_cons.1 hx with h | h
      · subst h; exact (foldl_min_le ls x).1
      · exact (foldl_min_le ls l).2 x h

/-- A group whose resolved lanes bind pairwise distinct aliases renders as
its zipped per-row bodies joined by the separator. -/
theorem renderToken_group_eq (children : List QuoteToken) (sep : Option String)
    (m : List (String × String)) (e : Env) (resolved : List (String × List Value))
    (n : Nat)
    (hres : resolveLanes e (get_variable_names children) = .ok resolved)
    (hdn : distinctNames (resolved.map Prod.fst) = true)
    (hn : zipLen (resolved.map fun p => p.2.length) = .ok n) :
    renderToken (QuoteToken.Group children sep) m e =
      Except.map (fun s => (s, e))
        (Except.map (joinSep (sep.getD ""))
          (bodyTexts children (get_variable_names children).reverse e
            ((List.range n).map (laneRow resolved)))) := by
  simp only [renderToken, hres, hdn, hn, Bind.bind, Except.bind, eq_self_iff_true, if_true]
  rw [renderRows_eq_joinSep]
  cases hb : bodyTexts children (get_variable_names children).reverse e
      ((List.range n).map (laneRow resolved)) with
  | error err => simp [Except.map]
  | ok bs => simp [Except.map]

/-- A group whose resolved lanes repeat an alias renders to the
duplicate-pattern compile error, whatever the lane lengths. -/
theorem renderToken_group_dup (children : List QuoteToken) (sep : Option String)
    (m : List (String × String)) (e : Env) (resolved : List (String × List Value))
    (hres : resolveLanes e (get_variable_names children) = .ok resolved)
    (hdn : distinctNames (resolved.map Prod.fst) = false) :
    renderToken (QuoteToken.Group children sep) m e = .error .duplicatePattern := by
  simp only [renderToken, hres, hdn, Bind.bind, Except.bind]
  simp

/-- C2 counterexample: the group with direct children `$a $a` — two lane
references to the same unaliased variable, both resolving to the same
length-2 sequence — does not iterate `min(2, 2) = 2` times as the claim
requires: the emitted `nested_tuple!` pattern binds the same identifier
twice (Rust E0416) and rendering fails with the duplicate-pattern error. -/
theorem zip_duplicate_lane_counterexample :
    render
      [QuoteToken.Group
        [QuoteToken.Variable "a" none, QuoteToken.Variable "a" none] none]
      [("a", Value.seq [Value.str "x", Value.str "y"])] =
      .error .duplicatePattern := by
  have hdup := renderToken_group_dup
    [QuoteToken.Variable "a" none, QuoteToken.Variable "a" none] none []
    [("a", Value.seq [Value.str "x", Value.str "y"])]
    [("__ext_format_inner_a", [Value.str "x", Value.str "y"]),
      ("__ext_format_inner_a", [Value.str "x", Value.str "y"])] rfl (by decide)
  simp only [render, renderTokens, hdup, Bind.bind, Except.bind]
  rfl

/-- The canonical two-lane group renders to exactly the zip of its two
sequences joined by the separator. -/
theorem two_lane_group_render (as bs : List String) (sep : Option String) :
    render
      [QuoteToken.Group
        [QuoteToken.Variable "a" none, QuoteToken.Variable "b" none] sep]
      [("a", Value.seq (as.map Value.str)), ("b", Value.seq (bs.map Value.str))] =
      .ok (joinSep (sep.getD "") ((as.zip bs).map fun p => p.1 ++ p.2)) ∧
    (as.zip bs).length = min as.length bs.length := by
  refine ⟨?_, List.length_zip as bs⟩
  have henv : resolveLanes
      [("a", Value.seq (as.map Value.str)), ("b", Value.seq (bs.map Value.str))]
      [("a", "__ext_format_inner_a"), ("b", "__ext_format_inner_b")] =
      .ok [("__ext_format_inner_a", as.map Value.str),
        ("__ext_format_inner_b", bs.map Value.str)] := by
    simp [get_variable_names, get_variable_names_go, seenContains, resolveLanes,
      lookupEnv, valToSeq, Bind.bind, Except.bind]
  have hbodies : bodyTexts
      [QuoteToken.Variable "a" none, QuoteToken.Variable "b" none]
      [("b", "__ext_format_inner_b"), ("a", "__ext_format_inner_a")]
      [("a", Value.seq (as.map Value.str)), ("b", Value.seq (bs.map Value.str))]
      ((List.range (min as.length bs.length)).map
        (laneRow [("__ext_format_inner_a", as.map Value.str),
          ("__ext_format_inner_b", bs.map Value.str)])) =
      .ok ((List.range (min as.length bs.length)).map
        (fun i => as.getD i "" ++ bs.getD i "")) := by
    apply bodyTexts_map_ok
    intro i _
    have hrow : laneRow [("__ext_format_inner_a", as.map Value.str),
        ("__ext_format_inner_b", bs.map Value.str)] i =
        [("__ext_format_inner_a", Value.str (as.getD i "")),
          ("__ext_format_inner_b", Value.str (bs.getD i ""))] := by
      simp [laneRow, getD_map_str]
    rw [hrow]
    exact ⟨_, two_lane_body (as.getD i "") (bs.getD i "") _⟩
  have hdn : distinctNames ["__ext_format_inner_a", "__ext_format_inner_b"] = true := by
    decide
  have hzip : zipLen [as.length, bs.length] = .ok (min as.length bs.length) := by
    simp [zipLen]
  simp only [render, renderTokens, renderToken,
    show get_variable_names [QuoteToken.Variable "a" none, QuoteToken.Variable "b" none] =
      [("a", "__ext_format_inner_a"), ("b", "__ext_format_inner_b")] from rfl,
    show ([("a", "__ext_format_inner_a"), ("b", "__ext_format_inner_b")] :
      List (String × String)).reverse =
      [("b", "__ext_format_inner_b"), ("a", "__ext_format_inner_a")] from rfl,
    henv, Bind.bind, Except.bind, List.map_cons, List.map_nil, List.length_map, hdn,
    eq_self_iff_true, if_true, hzip]
  rw [renderRows_eq_joinSep, hbodies]
  simp only [Except.map, Bind.bind, Except.bind]
  rw [range_min_map_zip (fun x y => x ++ y) as bs]
  simp

/-- C2 (amended): for every Group whose direct-child lanes all resolve to
sequences and bind pairwise distinct aliases, rendering iterates over
exactly `n` zipped rows, where `n` is the minimum of all lane lengths (it
is one of the lane lengths and a lower bound of all of them): the group
renders as the `n` per-row bodies joined by the separator, unequal lengths
themselves never fail, and no row reads an element at an index past the
shortest lane. A Group whose resolved lanes repeat an alias — as with one
variable name referenced twice without an alias — instead fails with the
duplicate-pattern compile error regardless of the lane lengths. The
canonical two-lane group renders, for all sequence lengths, to exactly the
zip of the two sequences, whose length is the minimum. -/
theorem group_zip_to_shortest :
    (∀ (children : List QuoteToken) (sep : Option String) (m : List (String × String))
        (e : Env) (resolved : List (String × List Value)) (n : Nat),
      resolveLanes e (get_variable_names children) = .ok resolved →
      distinctNames (resolved.map Prod.fst) = true →
      zipLen (resolved.map fun p => p.2.length) = .ok n →
      renderToken (QuoteToken.Group children sep) m e =
        Except.map (fun s => (s, e))
          (Except.map (joinSep (sep.getD ""))
            (bodyTexts children (get_variable_names children).reverse e
              ((List.range n).map (laneRow resolved)))) ∧
      ((List.range n).map (laneRow resolved)).length = n ∧
      n ∈ resolved.map (fun p => p.2.length) ∧
      (∀ x ∈ resolved.map (fun p => p.2.length), n ≤ x) ∧
      (∀ i ∈ List.range n, ∀ p ∈ resolved, i < p.2.length)) ∧
    (∀ (children : List QuoteToken) (sep : Option String) (m : List (String × String))
        (e : Env) (resolved : List (String × List Value)),
      resolveLanes e (get_variable_names children) = .ok resolved →
      distinctNames (resolved.map Prod.fst) = false →
      renderToken (QuoteToken.Group children sep) m e = .error .duplicatePattern) ∧
    (∀ (as bs : List String) (sep : Option String),
      render
        [QuoteToken.Group
          [QuoteToken.Variable "a" none, QuoteToken.Variable "b" none] sep]
        [("a", Value.seq (as.map Value.str)), ("b", Value.seq (bs.map Value.str))] =
        .ok (joinSep (sep.getD "") ((as.zip bs).map fun p => p.1 ++ p.2)) ∧
      (as.zip bs).length = min as.length bs.length) := by
  refine ⟨?_, renderToken_group_dup, two_lane_group_render⟩
  intro children sep m e resolved n hres hdn hn
  have hmin := zipLen_min (resolved.map fun p => p.2.length) n hn
  refine ⟨renderToken_group_eq children sep m e resolved n hres hdn hn,
    by simp, hmin.1, hmin.2, ?_⟩
  intro i hi p hp
  have h1 : n ≤ p.2.length :=
    hmin.2 p.2.length (List.mem_map_of_mem (fun p => p.2.length) hp)
  have h2 : i < n := List.mem_range.1 hi
  omega

/-- Witness for `group_zip_to_shortest` at concrete inputs discharging its
hypotheses: a one-lane group over a two-element sequence renders its two
joined rows, and the duplicated unaliased lane pair yields the
duplicate-pattern error. -/
theorem group_zip_to_shortest_witness :
    renderToken
      (QuoteToken.Group [QuoteToken.Variable "a" none] (some ";")) []
      [("a", Value.seq [Value.str "x", Value.str "y"])] =
      Except.map (fun s => (s, [("a", Value.seq [Value.str "x", Value.str "y"])]))
        (Except.map (joinSep ";")
          (bodyTexts [QuoteToken.Variable "a" none]
            [("a", "__ext_format_inner_a")]
            [("a", Value.seq [Value.str "x", Value.str "y"])]
            ((List.range 2).map
              (laneRow [("__ext_format_inner_a", [Value.str "x", Value.str "y"])])))) ∧
    renderToken
      (QuoteToken.Group
        [QuoteToken.Variable "a" none, QuoteToken.Variable "a" none] none) []
      [("a", Value.seq [Value.str "x", Value.str "y"])] =
      .error .duplicatePattern := by
  constructor
  · exact (group_zip_to_shortest.1 [QuoteToken.Variable "a" none] (some ";") []
      [("a", Value.seq [Value.str "x", Value.str "y"])]
      [("__ext_format_inner_a", [Value.str "x", Value.str "y"])] 2
      rfl (by decide) rfl).1
  · exact group_zip_to_shortest.2.1
      [QuoteToken.Variable "a" none, QuoteToken.Variable "a" none] none []
      [("a", Value.seq [Value.str "x", Value.str "y"])]
      [("__ext_format_inner_a", [Value.str "x", Value.str "y"]),
        ("__ext_format_inner_a", [Value.str "x", Value.str "y"])]
      rfl (by decide)

end ExtFormat
